import Mathlib

/-!
Verification of the numerical core of the S&P 500 correlation pipeline
(`Correlation_Matrix.py`).

The pipeline builds simple returns from open/close prices, normalizes each
return series chunk-wise (numpy `array_split` into `window_size` chunks,
per-chunk z-score with population standard deviation, then a global
`scipy.stats.zscore`), and computes one pairwise Pearson correlation matrix
per non-overlapping time window.

Embedding conventions:
* A floating-point value is modelled as `RVal := Option ℝ`; `none` is the
  non-finite marker (NaN/inf collapsed), produced by division by zero and by
  `np.sqrt` of a negative number, and propagated through all arithmetic.
* Python exceptions (IndexError from `window[win_num]`, ValueError from
  `np.corrcoef` on unequal-length inputs, ZeroDivisionError, indexing an
  empty dict's first key) are modelled by `Option` at the computation level:
  `none` at the outer layer means the source program raises.
* A Python dict with string keys is modelled as an insertion-ordered
  association list `List (String × List RVal)`; `list(d.keys())[i]` is
  positional access.
* `np.corrcoef(x, y)[0][1]` is `cov(x,y) / (std x * std y)`; numpy's
  `ddof = 1` in `np.cov` cancels between numerator and denominator, so over
  the reals it equals the population form used here.
-/

/-- A floating-point value: `none` is the non-finite marker (NaN or ±inf). -/
abbrev RVal : Type := Option ℝ

/-- The non-finite marker (`np.nan` and friends). -/
def rnan : RVal := none

/-- Chunk sizes of `np.array_split` on a length-`N` sequence split into `W`
chunks: the first `N % W` chunks have size `N / W + 1`, the rest `N / W`. -/
def chunkSizes (N W : ℕ) : List ℕ :=
  (List.range W).map (fun i => if i < N % W then N / W + 1 else N / W)

/-- Cut a list into consecutive chunks with the prescribed sizes. -/
def splitSizes {α : Type} : List ℕ → List α → List (List α)
  | [], _ => []
  | s :: ss, xs => xs.take s :: splitSizes ss (xs.drop s)

/-- `np.array_split(xs, W)`: split `xs` into `W` contiguous chunks of
near-equal size (sizes `N / W` or `N / W + 1`, the first `N % W` chunks
getting the extra element).  The source calls this with `W > 0`; numpy
raises on `W = 0`, where this embedding returns `[]`. -/
def array_split {α : Type} (xs : List α) (W : ℕ) : List (List α) :=
  splitSizes (chunkSizes xs.length W) xs

noncomputable section

/-- Float addition; non-finite operands propagate. -/
def radd : RVal → RVal → RVal
  | some a, some b => some (a + b)
  | _, _ => none

/-- Float subtraction; non-finite operands propagate. -/
def rsub : RVal → RVal → RVal
  | some a, some b => some (a - b)
  | _, _ => none

/-- Float multiplication; non-finite operands propagate. -/
def rmul : RVal → RVal → RVal
  | some a, some b => some (a * b)
  | _, _ => none

/-- Float division: division by zero yields the non-finite marker
(numpy emits inf/nan instead of raising); non-finite operands propagate. -/
def rdiv : RVal → RVal → RVal
  | some a, some b => if b = 0 then none else some (a / b)
  | _, _ => none

/-- `np.sqrt`: non-finite for negative input, propagates non-finite input. -/
def rsqrt : RVal → RVal
  | some a => if a < 0 then none else some (Real.sqrt a)
  | none => none

/-- Sum of a float sequence. -/
def rsum (xs : List RVal) : RVal := xs.foldr radd (some 0)

/-- `np.mean`: sum divided by length (the mean of an empty sequence is
`0 / 0`, the non-finite marker, matching numpy's nan). -/
def rmean (xs : List RVal) : RVal := rdiv (rsum xs) (some (xs.length : ℝ))

/-- Population variance: mean of the squared deviations from the mean. -/
def rvar (xs : List RVal) : RVal :=
  rmean (xs.map (fun a => rmul (rsub a (rmean xs)) (rsub a (rmean xs))))

/-- `np.std` with its default `ddof = 0`: the population standard
deviation, square root of the population variance. -/
def rstd (xs : List RVal) : RVal := rsqrt (rvar xs)

/-- `scipy.stats.zscore` with its default `ddof = 0`: subtract the global
mean and divide by the global population standard deviation. -/
def zscore (xs : List RVal) : List RVal :=
  xs.map (fun a => rdiv (rsub a (rmean xs)) (rstd xs))

/-- Per-chunk normalization of the Window Normalizer: every value `v` of a
chunk becomes `(v - mean(chunk)) / std(chunk)` (population std). -/
def chunkNorm (w : List RVal) : List RVal :=
  w.map (fun v => rdiv (rsub v (rmean w)) (rstd w))

/-- `calculate_normalized_returns_zero_mean` (source lines 62-79): loop
over `np.array_split(returns, window_size)` (default `window_size = 13`),
append `(ret - np.mean(window)) / np.std(window)` for each element of each
window, and return `stats.zscore` of the accumulated list.  The
accumulating nested loop of the source is kept as nested folds. -/
def calculate_normalized_returns_zero_mean (returns : List RVal) (window_size : ℕ) : List RVal :=
  zscore ((array_split returns window_size).foldl
    (fun acc window => window.foldl
      (fun acc2 ret => acc2 ++ [rdiv (rsub ret (rmean window)) (rstd window)]) acc) [])

/-- The Window Normalizer as the spec words it (§4.2): concatenate the
per-chunk normalized chunks in order, then apply one global z-score.
Stated from the spec to be compared with the source's accumulating-loop
form `calculate_normalized_returns_zero_mean`. -/
def spec_normalized_returns (returns : List RVal) (window_size : ℕ) : List RVal :=
  zscore (((array_split returns window_size).map chunkNorm).flatten)

/-- The Return Series Builder (source line 168):
`df[Return] = (df[Close] - df[Open]) / df[Open]`, elementwise over aligned
open/close columns; a zero open price yields the non-finite marker. -/
def return_series (opens closes : List ℝ) : List RVal :=
  List.zipWith (fun o c => rdiv (some (c - o)) (some o)) opens closes

/-- `np.corrcoef(x, y)[0][1]`: the Pearson correlation coefficient,
covariance divided by the product of the standard deviations (over ℝ the
`ddof` of `np.cov` cancels, so the population form is used).  Zero variance
of either input makes the denominator zero, hence the non-finite marker. -/
def pearson (x y : List RVal) : RVal :=
  rdiv (rmean (List.zipWith (fun a b => rmul (rsub a (rmean x)) (rsub b (rmean y))) x y))
       (rmul (rstd x) (rstd y))

/-- A correlation matrix, indexed by instrument position on both axes. -/
def CMat : Type := ℕ → ℕ → RVal

/-- `np.zeros((n, n))`: the initial all-zero matrix. -/
def zeroMat : CMat := fun _ _ => some 0

/-- Write one cell of a matrix. -/
def writeCell (m : CMat) (i j : ℕ) (v : RVal) : CMat :=
  fun a b => if a = i ∧ b = j then v else m a b

/-- The source's pair of writes `correlation_matrix[i, j] = Cij` followed by
`correlation_matrix[j, i] = Cij` (lines 120-121). -/
def writeSym (m : CMat) (i j : ℕ) (v : RVal) : CMat :=
  writeCell (writeCell m i j v) j i v

/-- Run the cell computation over a list of index pairs, threading the
matrix; a failing cell computation (a Python exception) aborts the loop. -/
def fillLoop (cell : ℕ → ℕ → Option RVal) : List (ℕ × ℕ) → CMat → Option CMat
  | [], m => some m
  | (i, j) :: ps, m =>
    match cell i j with
    | none => none
    | some v => fillLoop cell ps (writeSym m i j v)

/-- The iteration order of the double loop
`for i in range(n): for j in range(i, n):` of source lines 107-108. -/
def pairs (n : ℕ) : List (ℕ × ℕ) :=
  (List.range n).flatMap (fun i => (List.range' i (n - i)).map (fun j => (i, j)))

/-- One cell of the correlation matrix (source lines 109-118): split each
instrument's series into `len(series) // window_size` chunks using that
instrument's own length, take chunk `win`, and if both chunks have more
than one element return their Pearson correlation, otherwise `np.nan`.
The Python `and` short-circuits, so the second chunk is only indexed when
the first has more than one element; an out-of-range `win` (IndexError) and
unequal chunk lengths passed to `np.corrcoef` (ValueError) are failures. -/
def cellValue (series : List (List RVal)) (window_size win i j : ℕ) : Option RVal :=
  match series[i]?, series[j]? with
  | some si, some sj =>
    match (array_split si (si.length / window_size))[win]? with
    | none => none
    | some ci =>
      if 1 < ci.length then
        match (array_split sj (sj.length / window_size))[win]? with
        | none => none
        | some cj =>
          if 1 < cj.length then
            if ci.length = cj.length then some (pearson ci cj) else none
          else some rnan
      else some rnan
  | _, _ => none

/-- The matrix of window `win`: fill the zero matrix over all pairs
`(i, j)` with `i ≤ j < n`, writing each computed value symmetrically. -/
def fillMatrix (series : List (List RVal)) (window_size win n : ℕ) : Option CMat :=
  fillLoop (cellValue series window_size win) (pairs n) zeroMat

/-- Sequence a list of fallible results; any failure aborts. -/
def seqOption {α : Type} : List (Option α) → Option (List α)
  | [] => some []
  | none :: _ => none
  | some a :: rest => (seqOption rest).map (fun l => a :: l)

/-- `calculate_correlation_matrices_per_window` (source lines 87-124,
default `window_size = 44`): take the first instrument of the dict
(IndexError on an empty dict), set
`windows_count = len(first_series) // window_size`, and emit one matrix per
window index in `range(windows_count)`. -/
def calculate_correlation_matrices_per_window
    (stock_data : List (String × List RVal)) (window_size : ℕ) : Option (List CMat) :=
  match stock_data[0]? with
  | none => none
  | some first =>
    seqOption ((List.range (first.2.length / window_size)).map
      (fun win => fillMatrix (stock_data.map Prod.snd) window_size win stock_data.length))

/-- Two instruments with differing series lengths (2 and 1): the input of
the ragged-length scenario of §7. -/
def sdRagged : List (String × List RVal) := [("A", [some 0, some 0]), ("B", [some 0])]

/-- One instrument whose single window is `[0, 1]`: positive variance. -/
def sdDiag : List (String × List RVal) := [("A", [some 0, some 1])]

/-- Two instruments of equal length 2; with `window_size = 1` every chunk
has exactly one element. -/
def sdTiny : List (String × List RVal) :=
  [("A", [some 0, some 1]), ("B", [some 2, some 3])]

/-- One instrument with a normalized series of length 440. -/
def sd440 : List (String × List RVal) := [("S", List.replicate 440 (some 0))]

end

/-! ### Lemmas about the partition `array_split` -/

lemma splitSizes_length {α : Type} (ss : List ℕ) (xs : List α) :
    (splitSizes ss xs).length = ss.length := by
  induction ss generalizing xs with
  | nil => rfl
  | cons s ss ih => simp [splitSizes, ih]

lemma chunkSizes_length (N W : ℕ) : (chunkSizes N W).length = W := by
  simp [chunkSizes]

lemma range_if_sum (W k q : ℕ) :
    ((List.range W).map (fun i => if i < k then q + 1 else q)).sum = W * q + min k W := by
  induction W with
  | zero => simp
  | succ W ih =>
    rw [List.range_succ, List.map_append, List.sum_append]
    rcases Nat.lt_or_ge W k with h | h
    · have hk : min k (W + 1) = W + 1 := by omega
      have hk2 : min k W = W := by omega
      simp only [ih, List.map_cons, List.map_nil, List.sum_cons, List.sum_nil, if_pos h, hk, hk2]
      ring
    · have hk : min k (W + 1) = k := by omega
      have hk2 : min k W = k := by omega
      have : ¬ W < k := by omega
      simp only [ih, List.map_cons, List.map_nil, List.sum_cons, List.sum_nil, if_neg this,
        hk, hk2]
      ring

lemma chunkSizes_sum (N W : ℕ) (hW : 0 < W) : (chunkSizes N W).sum = N := by
  have hlt : N % W < W := Nat.mod_lt _ hW
  have := range_if_sum W (N % W) (N / W)
  rw [chunkSizes, this, min_eq_left hlt.le]
  exact Nat.div_add_mod N W

lemma splitSizes_join {α : Type} (ss : List ℕ) (xs : List α) (h : ss.sum = xs.length) :
    (splitSizes ss xs).flatten = xs := by
  induction ss generalizing xs with
  | nil =>
    simp only [List.sum_nil] at h
    simp [splitSizes, (List.length_eq_zero.mp h.symm)]
  | cons s ss ih =>
    simp only [List.sum_cons] at h
    have hdrop : ss.sum = (xs.drop s).length := by
      rw [List.length_drop]; omega
    simp [splitSizes, ih (xs.drop s) hdrop]

lemma splitSizes_map_length {α : Type} (ss : List ℕ) (xs : List α) (h : ss.sum = xs.length) :
    (splitSizes ss xs).map List.length = ss := by
  induction ss generalizing xs with
  | nil => rfl
  | cons s ss ih =>
    simp only [List.sum_cons] at h
    have hs : s ≤ xs.length := by omega
    have hdrop : ss.sum = (xs.drop s).length := by
      rw [List.length_drop]; omega
    simp [splitSizes, List.length_take, min_eq_left hs, ih (xs.drop s) hdrop]

lemma array_split_length {α : Type} (xs : List α) (W : ℕ) :
    (array_split xs W).length = W := by
  rw [array_split, splitSizes_length, chunkSizes_length]

lemma array_split_join {α : Type} (xs : List α) (W : ℕ) (hW : 0 < W) :
    (array_split xs W).flatten = xs :=
  splitSizes_join _ _ (chunkSizes_sum _ _ hW)

lemma array_split_map_length {α : Type} (xs : List α) (W : ℕ) (hW : 0 < W) :
    (array_split xs W).map List.length = chunkSizes xs.length W :=
  splitSizes_map_length _ _ (chunkSizes_sum _ _ hW)

/-! ### Claim theorems (first batch) -/

/-- C2: for every input sequence of length `N` and every `window_size`
`W > 0`, the Window Normalizer's partition step (`np.array_split`, source
line 74) yields exactly `W` contiguous chunks — their concatenation in order
is the input — whose sizes are `N / W` or `N / W + 1`, the first `N % W`
chunks receiving the extra element. -/
theorem array_split_partition {α : Type} (xs : List α) (W : ℕ) (hW : 0 < W) :
    (array_split xs W).length = W ∧
    (array_split xs W).flatten = xs ∧
    (array_split xs W).map List.length =
      (List.range W).map
        (fun i => if i < xs.length % W then xs.length / W + 1 else xs.length / W) :=
  ⟨array_split_length xs W, array_split_join xs W hW, array_split_map_length xs W hW⟩

/-- C2 witness: a series of length 10 with `W = 3` splits into chunks of
sizes `[4, 3, 3]`. -/
theorem array_split_partition_witness :
    0 < 3 ∧
    ((array_split (List.range 10) 3).length = 3 ∧
     (array_split (List.range 10) 3).flatten = List.range 10 ∧
     (array_split (List.range 10) 3).map List.length =
       (List.range 3).map
         (fun i => if i < (List.range 10).length % 3 then (List.range 10).length / 3 + 1
           else (List.range 10).length / 3)) ∧
    (array_split (List.range 10) 3).map List.length = [4, 3, 3] :=
  ⟨by decide, array_split_partition (List.range 10) 3 (by decide), by decide⟩

/-- C10: on an empty instrument mapping the Windowed Correlation Engine
fails (the source raises IndexError at `company_names[0]`, line 102)
instead of returning an empty list of matrices: a non-empty instrument set
is an unchecked precondition. -/
theorem engine_empty_input_fails (W : ℕ) :
    calculate_correlation_matrices_per_window [] W = none := rfl

/-! ### Lemmas about the Window Normalizer -/

lemma fold_append_map (f : RVal → RVal) (w : List RVal) (acc : List RVal) :
    w.foldl (fun a r => a ++ [f r]) acc = acc ++ w.map f := by
  induction w generalizing acc with
  | nil => simp
  | cons x xs ih => simp [ih]

lemma norm_loop_eq (chunks : List (List RVal)) (acc : List RVal) :
    chunks.foldl (fun acc2 window => window.foldl
      (fun acc3 ret => acc3 ++ [rdiv (rsub ret (rmean window)) (rstd window)]) acc2) acc
    = acc ++ (chunks.map chunkNorm).flatten := by
  induction chunks generalizing acc with
  | nil => simp
  | cons w ws ih =>
    simp only [List.foldl_cons, List.map_cons, List.flatten_cons]
    rw [fold_append_map (fun ret => rdiv (rsub ret (rmean w)) (rstd w)) w acc, ih,
      List.append_assoc]
    rfl

lemma normalizer_eq_spec (returns : List RVal) (W : ℕ) :
    calculate_normalized_returns_zero_mean returns W = spec_normalized_returns returns W := by
  rw [calculate_normalized_returns_zero_mean, spec_normalized_returns, norm_loop_eq,
    List.nil_append]

lemma zscore_length (xs : List RVal) : (zscore xs).length = xs.length := by
  simp [zscore]

lemma chunkNorm_length (w : List RVal) : (chunkNorm w).length = w.length := by
  simp [chunkNorm]

lemma flatten_map_chunkNorm_length (chunks : List (List RVal)) :
    ((chunks.map chunkNorm).flatten).length = chunks.flatten.length := by
  induction chunks with
  | nil => rfl
  | cons w ws ih => simp [chunkNorm_length, ih]

lemma normalizer_length (returns : List RVal) (W : ℕ) (hW : 0 < W) :
    (calculate_normalized_returns_zero_mean returns W).length = returns.length := by
  rw [normalizer_eq_spec, spec_normalized_returns, zscore_length,
    flatten_map_chunkNorm_length, array_split_join returns W hW]

/-! ### Lemmas about non-finite propagation in a constant chunk -/

lemma rsum_none (c : List RVal) (h : none ∈ c) : rsum c = none := by
  induction c with
  | nil => simp at h
  | cons x xs ih =>
    rcases List.mem_cons.mp h with h | h
    · rw [rsum, List.foldr_cons, ← h]
      rfl
    · have : rsum xs = none := ih h
      rw [rsum, List.foldr_cons]
      rw [rsum] at this
      rw [this]
      cases x <;> rfl

lemma rsum_const_some (c : List RVal) (r : ℝ) (h : ∀ y ∈ c, y = some r) :
    rsum c = some (c.length * r) := by
  induction c with
  | nil => simp [rsum]
  | cons x xs ih =>
    have hx : x = some r := h x (List.mem_cons_self x xs)
    have hxs : rsum xs = some (xs.length * r) :=
      ih (fun y hy => h y (List.mem_cons_of_mem x hy))
    rw [rsum, List.foldr_cons, hx]
    rw [rsum] at hxs
    rw [hxs, radd]
    congr 1
    simp only [List.length_cons]
    push_cast
    ring

lemma rmean_const (c : List RVal) (r : ℝ) (hne : c ≠ []) (h : ∀ y ∈ c, y = some r) :
    rmean c = some r := by
  have hn : (c.length : ℝ) ≠ 0 :=
    Nat.cast_ne_zero.mpr (fun h0 => hne (List.length_eq_zero.mp h0))
  rw [rmean, rsum_const_some c r h, rdiv, if_neg hn]
  exact congrArg some (mul_div_cancel_left₀ r hn)

lemma rsub_none_right (v : RVal) : rsub v none = none := by cases v <;> rfl

lemma rdiv_none_left (y : RVal) : rdiv none y = none := by cases y <;> rfl

lemma rmean_of_none_mem (c : List RVal) (h : none ∈ c) : rmean c = none := by
  rw [rmean, rsum_none c h]
  rfl

lemma rvar_const (c : List RVal) (r : ℝ) (hne : c ≠ []) (h : ∀ y ∈ c, y = some r) :
    rvar c = some 0 := by
  have hm := rmean_const c r hne h
  rw [rvar, hm]
  apply rmean_const _ 0 (by simpa using hne)
  intro w hw
  obtain ⟨a, ha, rfl⟩ := List.mem_map.mp hw
  rw [h a ha]
  simp [rsub, rmul]

lemma rstd_const (c : List RVal) (r : ℝ) (hne : c ≠ []) (h : ∀ y ∈ c, y = some r) :
    rstd c = some 0 := by
  rw [rstd, rvar_const c r hne h, rsqrt]
  simp

lemma chunkNorm_const (c : List RVal) (hne : c ≠ []) (hconst : ∀ x ∈ c, ∀ y ∈ c, x = y) :
    ∀ z ∈ chunkNorm c, z = rnan := by
  obtain ⟨x, xs, rfl⟩ := List.exists_cons_of_ne_nil hne
  intro z hz
  rw [chunkNorm] at hz
  obtain ⟨v, hv, rfl⟩ := List.mem_map.mp hz
  cases x with
  | none =>
    have hm : rmean (none :: xs) = none :=
      rmean_of_none_mem _ (List.mem_cons_self _ _)
    rw [hm, rsub_none_right, rdiv_none_left]
    rfl
  | some r =>
    have hall : ∀ y ∈ some r :: xs, y = some r :=
      fun y hy => hconst y hy (some r) (List.mem_cons_self _ _)
    have hne2 : some r :: xs ≠ [] := List.cons_ne_nil _ _
    have hm : rmean (some r :: xs) = some r := rmean_const _ r hne2 hall
    rw [hall v hv, hm, rstd_const _ r hne2 hall]
    simp [rsub, rdiv, rnan]

/-! ### Claim theorems: Window Normalizer and Return Series Builder -/

/-- C3: for every input return series, the Window Normalizer's output is the
global population z-score of the in-order concatenation of the per-chunk
values `(v - mean(chunk)) / std(chunk)` (population standard deviation), and
for `window_size > 0` the output length equals the input length. -/
theorem normalizer_output_spec (returns : List RVal) (W : ℕ) (hW : 0 < W) :
    calculate_normalized_returns_zero_mean returns W = spec_normalized_returns returns W ∧
    (calculate_normalized_returns_zero_mean returns W).length = returns.length :=
  ⟨normalizer_eq_spec returns W, normalizer_length returns W hW⟩

/-- C3 witness: the normalizer on the length-3 series `[1, 2, 3]` with
`window_size = 2` agrees with the spec form and keeps length 3. -/
theorem normalizer_output_spec_witness :
    0 < 2 ∧
    (calculate_normalized_returns_zero_mean [some (1:ℝ), some 2, some 3] 2 =
       spec_normalized_returns [some (1:ℝ), some 2, some 3] 2 ∧
     (calculate_normalized_returns_zero_mean [some (1:ℝ), some 2, some 3] 2).length = 3) :=
  ⟨by decide, normalizer_output_spec [some 1, some 2, some 3] 2 (by decide)⟩

/-- C6: a constant-valued (hence zero-variance, in particular size-1)
nonempty chunk of the partition makes every per-chunk normalized value of
that chunk non-finite, and this is data, not an error: the normalizer still
returns a full-length series. -/
theorem constant_chunk_nonfinite (returns : List RVal) (W : ℕ) (c : List RVal) (hW : 0 < W)
    (hc : c ∈ array_split returns W) (hne : c ≠ [])
    (hconst : ∀ x ∈ c, ∀ y ∈ c, x = y) :
    (∀ z ∈ chunkNorm c, z = rnan) ∧
    (calculate_normalized_returns_zero_mean returns W).length = returns.length :=
  ⟨chunkNorm_const c hne hconst, normalizer_length returns W hW⟩

/-- C6 witness: for the series `[1, 1, 2]` with `window_size = 2` the first
chunk is the constant chunk `[1, 1]`; its normalized values are all the
non-finite marker and the normalizer still returns 3 values. -/
theorem constant_chunk_nonfinite_witness :
    (∀ z ∈ chunkNorm [some (1:ℝ), some 1], z = rnan) ∧
    (calculate_normalized_returns_zero_mean [some (1:ℝ), some 1, some 2] 2).length = 3 :=
  constant_chunk_nonfinite [some 1, some 1, some 2] 2 [some 1, some 1] (by decide)
    (List.mem_cons_self _ _) (by simp) (by simp)

lemma zipWith_get_some {α β γ : Type} (f : α → β → γ) (l1 : List α) (l2 : List β) (t : ℕ)
    (a : α) (b : β) (h1 : l1[t]? = some a) (h2 : l2[t]? = some b) :
    (List.zipWith f l1 l2)[t]? = some (f a b) := by
  induction l1 generalizing l2 t with
  | nil => simp at h1
  | cons x xs ih =>
    cases l2 with
    | nil => simp at h2
    | cons y ys =>
      cases t with
      | zero =>
        simp only [List.getElem?_cons_zero, Option.some.injEq] at h1 h2
        simp [List.zipWith_cons_cons, h1, h2]
      | succ t =>
        simp only [List.getElem?_cons_succ] at h1 h2
        simpa using ih ys t h1 h2

/-- C8: the Return Series Builder is a pure elementwise map over aligned
open/close sequences of equal length `N`: it yields exactly `N` returns,
`return[t] = (close[t] - open[t]) / open[t]`, and a zero open price yields
the non-finite marker at that position instead of an error. -/
theorem return_series_spec (opens closes : List ℝ) (h : opens.length = closes.length) :
    (return_series opens closes).length = opens.length ∧
    ∀ (t : ℕ) (o c : ℝ), opens[t]? = some o → closes[t]? = some c →
      (return_series opens closes)[t]? =
        some (if o = 0 then rnan else some ((c - o) / o)) := by
  constructor
  · simp [return_series, h]
  · intro t o c h1 h2
    rw [return_series, zipWith_get_some _ _ _ _ _ _ h1 h2]
    simp [rdiv, rnan]

/-- C8 witness: opens `[1, 0]` and closes `[3, 5]` give returns
`[(3-1)/1, non-finite]`. -/
theorem return_series_spec_witness :
    ([(1:ℝ), 0].length = [(3:ℝ), 5].length) ∧
    (return_series [1, 0] [3, 5]).length = 2 ∧
    (return_series [1, 0] [3, 5])[0]? = some (some 2) ∧
    (return_series [1, 0] [3, 5])[1]? = some rnan := by
  have h : ([(1:ℝ), 0]).length = ([(3:ℝ), 5]).length := rfl
  obtain ⟨hlen, hval⟩ := return_series_spec [1, 0] [3, 5] h
  refine ⟨h, hlen, ?_, ?_⟩
  · rw [hval 0 1 3 rfl rfl]
    norm_num
  · rw [hval 1 0 5 rfl rfl]
    simp

/-- C9: the Windowed Correlation Engine splits every instrument by its own
series length, so instruments of differing lengths desynchronize: on
`sdRagged` (lengths 2 and 1, `window_size = 1`) the first instrument fixes
`windows_count = 2`, the second instrument's chunk list has only 1 chunk,
and the window-1 chunk access is out of range — the run fails (IndexError,
modelled as `none`) after window 0 succeeded. -/
theorem ragged_lengths_window_failure :
    1 < [some (0:ℝ), some 0].length / 1 ∧
    (array_split [some (0:ℝ)] ([some (0:ℝ)].length / 1)).length = 1 ∧
    (fillMatrix [[some (0:ℝ), some 0], [some 0]] 1 0 2).isSome = true ∧
    fillMatrix [[some (0:ℝ), some 0], [some 0]] 1 1 2 = none ∧
    calculate_correlation_matrices_per_window sdRagged 1 = none :=
  ⟨by decide, array_split_length _ _, rfl, rfl, rfl⟩

/-! ### Lemmas about the pair loop and the matrix fill -/

lemma mem_pairs {n : ℕ} {p : ℕ × ℕ} : p ∈ pairs n ↔ p.1 ≤ p.2 ∧ p.2 < n := by
  obtain ⟨i, j⟩ := p
  simp only [pairs, List.mem_flatMap, List.mem_map, List.mem_range, Prod.mk.injEq]
  constructor
  · rintro ⟨a, ha, b, hb, rfl, rfl⟩
    have := List.mem_range'_1.mp hb
    omega
  · rintro ⟨hij, hjn⟩
    exact ⟨i, by omega, j, List.mem_range'_1.mpr (by omega), rfl, rfl⟩

lemma pairs_nodup (n : ℕ) : (pairs n).Nodup := by
  rw [pairs, List.nodup_flatMap]
  constructor
  · intro a _
    exact (List.nodup_range' _ _).map (fun x y h => congrArg Prod.snd h)
  · have h := List.nodup_range n
    refine h.imp ?_
    intro a b hab x hxa hxb
    obtain ⟨x1, _, rfl⟩ := List.mem_map.mp hxa
    obtain ⟨x2, _, heq⟩ := List.mem_map.mp hxb
    exact hab (congrArg Prod.fst heq).symm

lemma writeSym_self_1 (m : CMat) (i j : ℕ) (v : RVal) : writeSym m i j v i j = v := by
  by_cases h : i = j
  · subst h
    simp [writeSym, writeCell]
  · simp only [writeSym, writeCell]
    rw [if_neg (fun hh => h hh.1)]
    simp

lemma writeSym_self_2 (m : CMat) (i j : ℕ) (v : RVal) : writeSym m i j v j i = v := by
  simp [writeSym, writeCell]

lemma writeSym_other (m : CMat) (i j a b : ℕ) (v : RVal)
    (h1 : (i, j) ≠ (a, b)) (h2 : (i, j) ≠ (b, a)) :
    writeSym m i j v a b = m a b := by
  simp only [writeSym, writeCell]
  have n1 : ¬(a = j ∧ b = i) := by
    rintro ⟨rfl, rfl⟩
    exact h2 rfl
  have n2 : ¬(a = i ∧ b = j) := by
    rintro ⟨rfl, rfl⟩
    exact h1 rfl
  rw [if_neg n1, if_neg n2]

lemma fillLoop_append (cell : ℕ → ℕ → Option RVal) (l1 l2 : List (ℕ × ℕ)) (m : CMat) :
    fillLoop cell (l1 ++ l2) m =
      (fillLoop cell l1 m).bind (fun m1 => fillLoop cell l2 m1) := by
  induction l1 generalizing m with
  | nil => simp [fillLoop]
  | cons p ps ih =>
    obtain ⟨i, j⟩ := p
    cases h : cell i j with
    | none => simp [fillLoop, h]
    | some v => simp [fillLoop, h, ih]

lemma fillLoop_frame (cell : ℕ → ℕ → Option RVal) (ps : List (ℕ × ℕ)) (m M : CMat)
    (a b : ℕ) (hM : fillLoop cell ps m = some M)
    (hnot : ∀ p ∈ ps, p ≠ (a, b) ∧ p ≠ (b, a)) :
    M a b = m a b ∧ M b a = m b a := by
  induction ps generalizing m with
  | nil =>
    simp only [fillLoop, Option.some.injEq] at hM
    subst hM
    exact ⟨rfl, rfl⟩
  | cons p ps ih =>
    obtain ⟨i, j⟩ := p
    rw [fillLoop] at hM
    cases h : cell i j with
    | none =>
      rw [h] at hM
      exact absurd hM (by simp)
    | some v =>
      rw [h] at hM
      have hp := hnot (i, j) (List.mem_cons_self _ _)
      have hrest := ih (writeSym m i j v) hM (fun q hq => hnot q (List.mem_cons_of_mem _ hq))
      rw [hrest.1, hrest.2, writeSym_other m i j a b v hp.1 hp.2,
        writeSym_other m i j b a v hp.2 hp.1]
      exact ⟨rfl, rfl⟩

lemma fillLoop_symm (cell : ℕ → ℕ → Option RVal) (ps : List (ℕ × ℕ)) (m M : CMat)
    (hM : fillLoop cell ps m = some M) (hm : ∀ a b, m a b = m b a) :
    ∀ a b, M a b = M b a := by
  induction ps generalizing m with
  | nil =>
    simp only [fillLoop, Option.some.injEq] at hM
    subst hM
    exact hm
  | cons p ps ih =>
    obtain ⟨i, j⟩ := p
    rw [fillLoop] at hM
    cases h : cell i j with
    | none =>
      rw [h] at hM
      exact absurd hM (by simp)
    | some v =>
      rw [h] at hM
      refine ih (writeSym m i j v) hM ?_
      intro a b
      simp only [writeSym, writeCell]
      have e1 : (b = j ∧ a = i) ↔ (a = i ∧ b = j) := and_comm
      have e2 : (b = i ∧ a = j) ↔ (a = j ∧ b = i) := and_comm
      rw [if_congr e1 rfl rfl, if_congr e2 rfl rfl]
      by_cases c1 : a = j ∧ b = i <;> by_cases c2 : a = i ∧ b = j <;>
        simp [c1, c2, hm a b]

lemma fillLoop_isSome (cell : ℕ → ℕ → Option RVal) (ps : List (ℕ × ℕ)) (m : CMat)
    (h : ∀ p ∈ ps, (cell p.1 p.2).isSome) : (fillLoop cell ps m).isSome := by
  induction ps generalizing m with
  | nil => rfl
  | cons p ps ih =>
    obtain ⟨i, j⟩ := p
    have hp := h (i, j) (List.mem_cons_self _ _)
    rw [fillLoop]
    cases hc : cell i j with
    | none =>
      rw [hc] at hp
      simp at hp
    | some v => exact ih _ (fun q hq => h q (List.mem_cons_of_mem _ hq))

/-! ### Lemmas about `seqOption` -/

lemma seqOption_length {α : Type} (l : List (Option α)) (l2 : List α)
    (h : seqOption l = some l2) : l2.length = l.length := by
  induction l generalizing l2 with
  | nil =>
    simp only [seqOption, Option.some.injEq] at h
    subst h
    rfl
  | cons x xs ih =>
    cases x with
    | none => simp [seqOption] at h
    | some a =>
      rw [seqOption] at h
      cases hs : seqOption xs with
      | none =>
        rw [hs] at h
        simp at h
      | some ys =>
        rw [hs] at h
        simp only [Option.map_some', Option.some.injEq] at h
        subst h
        simp [ih ys hs]

lemma seqOption_get {α : Type} (l : List (Option α)) (l2 : List α)
    (h : seqOption l = some l2) (k : ℕ) (x : α) (hx : l2[k]? = some x) :
    l[k]? = some (some x) := by
  induction l generalizing l2 k with
  | nil =>
    simp only [seqOption, Option.some.injEq] at h
    subst h
    simp at hx
  | cons y ys ih =>
    cases y with
    | none => simp [seqOption] at h
    | some a =>
      rw [seqOption] at h
      cases hs : seqOption ys with
      | none =>
        rw [hs] at h
        simp at h
      | some zs =>
        rw [hs] at h
        simp only [Option.map_some', Option.some.injEq] at h
        subst h
        cases k with
        | zero =>
          simp only [List.getElem?_cons_zero, Option.some.injEq] at hx
          simp [hx]
        | succ k =>
          simp only [List.getElem?_cons_succ] at hx ⊢
          exact ih zs hs k hx

lemma seqOption_mem {α : Type} (l : List (Option α)) (l2 : List α)
    (h : seqOption l = some l2) (x : α) (hx : x ∈ l2) : some x ∈ l := by
  induction l generalizing l2 with
  | nil =>
    simp only [seqOption, Option.some.injEq] at h
    subst h
    simp at hx
  | cons y ys ih =>
    cases y with
    | none => simp [seqOption] at h
    | some a =>
      rw [seqOption] at h
      cases hs : seqOption ys with
      | none =>
        rw [hs] at h
        simp at h
      | some zs =>
        rw [hs] at h
        simp only [Option.map_some', Option.some.injEq] at h
        subst h
        rcases List.mem_cons.mp hx with h1 | h1
        · exact List.mem_cons.mpr (Or.inl (congrArg some h1))
        · exact List.mem_cons.mpr (Or.inr (ih zs hs h1))

lemma seqOption_isSome {α : Type} (l : List (Option α)) (h : ∀ x ∈ l, x.isSome) :
    (seqOption l).isSome := by
  induction l with
  | nil => rfl
  | cons y ys ih =>
    cases y with
    | none =>
      have := h none (List.mem_cons_self _ _)
      simp at this
    | some a =>
      rw [seqOption]
      have := ih (fun x hx => h x (List.mem_cons_of_mem _ hx))
      obtain ⟨zs, hzs⟩ := Option.isSome_iff_exists.mp this
      rw [hzs]
      rfl

/-! ### The value of one matrix entry of a successful engine run -/

lemma engine_entry (sd : List (String × List RVal)) (W w i j : ℕ)
    (mats : List CMat) (M : CMat)
    (hE : calculate_correlation_matrices_per_window sd W = some mats)
    (hM : mats[w]? = some M) (hij : i ≤ j) (hj : j < sd.length) :
    ∃ v, cellValue (sd.map Prod.snd) W w i j = some v ∧ M i j = v ∧ M j i = v := by
  cases h0 : sd[0]? with
  | none =>
    rw [calculate_correlation_matrices_per_window, h0] at hE
    exact absurd hE (by simp)
  | some first =>
    rw [calculate_correlation_matrices_per_window, h0] at hE
    have hfm0 := seqOption_get _ mats hE w M hM
    rw [List.getElem?_map] at hfm0
    have hw : w < first.2.length / W := by
      by_contra hcon
      rw [List.getElem?_eq_none (by simpa using hcon)] at hfm0
      simp at hfm0
    rw [List.getElem?_range hw] at hfm0
    simp only [Option.map_some', Option.some.injEq] at hfm0
    rw [fillMatrix] at hfm0
    have hmem : (i, j) ∈ pairs sd.length := mem_pairs.mpr ⟨hij, hj⟩
    obtain ⟨l1, l2, hsplit⟩ := List.append_of_mem hmem
    have hnd : (l1 ++ (i, j) :: l2).Nodup := hsplit ▸ pairs_nodup sd.length
    have hnotin : (i, j) ∉ l2 := (List.nodup_cons.mp hnd.of_append_right).1
    have hnotin2 : i ≠ j → (j, i) ∉ l2 := by
      intro hne hmem2
      have : (j, i) ∈ pairs sd.length := by
        rw [hsplit]
        exact List.mem_append.mpr (Or.inr (List.mem_cons_of_mem _ hmem2))
      have := (mem_pairs.mp this).1
      omega
    rw [hsplit, fillLoop_append] at hfm0
    cases hf1 : fillLoop (cellValue (sd.map Prod.snd) W w) l1 zeroMat with
    | none =>
      rw [hf1] at hfm0
      simp at hfm0
    | some m1 =>
      rw [hf1] at hfm0
      simp only [Option.some_bind] at hfm0
      rw [fillLoop] at hfm0
      cases hc : cellValue (sd.map Prod.snd) W w i j with
      | none =>
        rw [hc] at hfm0
        exact absurd hfm0 (by simp)
      | some v =>
        rw [hc] at hfm0
        have hnot : ∀ p ∈ l2, p ≠ (i, j) ∧ p ≠ (j, i) := by
          intro p hp
          constructor
          · intro hpe
            exact hnotin (hpe ▸ hp)
          · intro hpe
            by_cases hije : i = j
            · subst hije
              exact hnotin (hpe ▸ hp)
            · exact hnotin2 hije (hpe ▸ hp)
        have hframe := fillLoop_frame _ l2 _ M i j hfm0 hnot
        refine ⟨v, rfl, ?_, ?_⟩
        · rw [hframe.1, writeSym_self_1]
        · rw [hframe.2, writeSym_self_2]

/-! ### Pearson correlation lemmas -/

lemma rmul_comm (a b : RVal) : rmul a b = rmul b a := by
  cases a <;> cases b <;> simp [rmul, mul_comm]

lemma zipWith_self_eq_map {α β : Type} (f : α → α → β) (l : List α) :
    List.zipWith f l l = l.map (fun a => f a a) := by
  induction l with
  | nil => rfl
  | cons x xs ih => simp [ih]

lemma pearson_comm (x y : List RVal) : pearson x y = pearson y x := by
  rw [pearson, pearson, rmul_comm (rstd x), List.zipWith_comm]
  have : (fun b a => rmul (rsub a (rmean x)) (rsub b (rmean y))) =
      (fun b a => rmul (rsub b (rmean y)) (rsub a (rmean x))) := by
    funext b a
    exact rmul_comm _ _
  rw [this]

lemma pearson_self (x : List RVal) (v : ℝ) (hvar : rvar x = some v) (hv : 0 < v) :
    pearson x x = some 1 := by
  rw [pearson, zipWith_self_eq_map]
  show rdiv (rvar x) (rmul (rstd x) (rstd x)) = some 1
  rw [hvar, rstd, hvar, rsqrt, if_neg (not_lt.mpr hv.le), rmul]
  rw [Real.mul_self_sqrt hv.le, rdiv, if_neg hv.ne']
  rw [div_self hv.ne']

/-! ### Success of the engine on equal-length instruments -/

lemma chunkSizes_get_len (xs : List RVal) (k w : ℕ) (c : List RVal) (hk : 0 < k)
    (hc : (array_split xs k)[w]? = some c) :
    (chunkSizes xs.length k)[w]? = some c.length := by
  rw [← array_split_map_length xs k hk, List.getElem?_map, hc]
  rfl

lemma engine_success (sd : List (String × List RVal)) (W L : ℕ) (hW : 0 < W)
    (hne : sd ≠ []) (hlen : ∀ p ∈ sd, (p.2).length = L) :
    ∃ mats, calculate_correlation_matrices_per_window sd W = some mats ∧
      mats.length = L / W := by
  have h0 : ∃ first, sd[0]? = some first := by
    obtain ⟨b, l, rfl⟩ := List.exists_cons_of_ne_nil hne
    exact ⟨b, List.getElem?_cons_zero⟩
  obtain ⟨first, h0⟩ := h0
  have hfirst : first.2.length = L := by
    obtain ⟨hlt, heq⟩ := List.getElem?_eq_some.mp h0
    exact hlen first (heq ▸ List.getElem_mem hlt)
  have hcell : ∀ win, win < L / W → ∀ p ∈ pairs sd.length,
      (cellValue (sd.map Prod.snd) W win p.1 p.2).isSome := by
    intro win hwin p hp
    obtain ⟨i, j⟩ := p
    obtain ⟨hij, hjn⟩ := mem_pairs.mp hp
    have hin : i < sd.length := lt_of_le_of_lt hij hjn
    have hsl : i < (sd.map Prod.snd).length := by simpa using hin
    have hsl2 : j < (sd.map Prod.snd).length := by simpa using hjn
    set si := (sd.map Prod.snd)[i] with hsidef
    set sj := (sd.map Prod.snd)[j] with hsjdef
    have hsi : (sd.map Prod.snd)[i]? = some si := List.getElem?_eq_getElem hsl
    have hsj : (sd.map Prod.snd)[j]? = some sj := List.getElem?_eq_getElem hsl2
    have hsiL : si.length = L := by
      obtain ⟨q, hq, hq2⟩ := List.mem_map.mp (hsidef ▸ List.getElem_mem hsl)
      rw [← hq2]
      exact hlen q hq
    have hsjL : sj.length = L := by
      obtain ⟨q, hq, hq2⟩ := List.mem_map.mp (hsjdef ▸ List.getElem_mem hsl2)
      rw [← hq2]
      exact hlen q hq
    have hkpos : 0 < L / W := lt_of_le_of_lt (Nat.zero_le win) hwin
    have hwin2 : win < (array_split si (si.length / W)).length := by
      rw [array_split_length, hsiL]
      exact hwin
    have hwin3 : win < (array_split sj (sj.length / W)).length := by
      rw [array_split_length, hsjL]
      exact hwin
    set ci := (array_split si (si.length / W))[win] with hcidef
    set cj := (array_split sj (sj.length / W))[win] with hcjdef
    have hci : (array_split si (si.length / W))[win]? = some ci :=
      List.getElem?_eq_getElem hwin2
    have hcj : (array_split sj (sj.length / W))[win]? = some cj :=
      List.getElem?_eq_getElem hwin3
    have hlen_eq : ci.length = cj.length := by
      have h1 := chunkSizes_get_len si (si.length / W) win ci (by rw [hsiL]; exact hkpos) hci
      have h2 := chunkSizes_get_len sj (sj.length / W) win cj (by rw [hsjL]; exact hkpos) hcj
      rw [hsiL] at h1
      rw [hsjL] at h2
      exact Option.some.inj (h1.symm.trans h2)
    simp only [cellValue, hsi, hsj, hci, hcj]
    by_cases h1 : 1 < ci.length
    · rw [if_pos h1, if_pos (hlen_eq ▸ h1), if_pos hlen_eq]
      rfl
    · rw [if_neg h1]
      rfl
  have hall : ∀ x ∈ (List.range (first.2.length / W)).map
      (fun win => fillMatrix (sd.map Prod.snd) W win sd.length), x.isSome := by
    intro x hx
    obtain ⟨win, hwin, rfl⟩ := List.mem_map.mp hx
    have hwin2 : win < L / W := by
      have := List.mem_range.mp hwin
      rwa [hfirst] at this
    exact fillLoop_isSome _ _ _ (hcell win hwin2)
  obtain ⟨mats, hmats⟩ := Option.isSome_iff_exists.mp (seqOption_isSome _ hall)
  refine ⟨mats, ?_, ?_⟩
  · rw [calculate_correlation_matrices_per_window, h0]
    exact hmats
  · have hl := seqOption_length _ mats hmats
    simp only [List.length_map, List.length_range] at hl
    rw [hl, hfirst]

/-! ### Claim theorems: Windowed Correlation Engine -/

/-- C1: a successful engine run emits exactly
`floor(len(first_instrument_series) / window_size)` correlation matrices,
the first instrument of the mapping being the reference for the count. -/
theorem windows_count_floor (sd : List (String × List RVal)) (W : ℕ)
    (first : String × List RVal) (mats : List CMat)
    (h0 : sd[0]? = some first)
    (hE : calculate_correlation_matrices_per_window sd W = some mats) :
    mats.length = first.2.length / W := by
  rw [calculate_correlation_matrices_per_window, h0] at hE
  have hl := seqOption_length _ mats hE
  simpa using hl

set_option maxRecDepth 8192 in
/-- C1 witness: one instrument with a normalized series of length 440 and
`window_size = 44` produces exactly 10 matrices. -/
theorem windows_count_floor_witness :
    ∃ mats, calculate_correlation_matrices_per_window sd440 44 = some mats ∧
      mats.length = 10 := by
  have hlenall : ∀ p ∈ sd440, (p.2).length = 440 := by
    intro p hp
    simp only [sd440, List.mem_singleton] at hp
    subst hp
    exact List.length_replicate 440 _
  have hne440 : sd440 ≠ [] := by
    rw [sd440]
    exact List.cons_ne_nil _ _
  obtain ⟨mats, hE, _⟩ := engine_success sd440 44 440 (by decide) hne440 hlenall
  have h0 : sd440[0]? = some ("S", List.replicate 440 (some 0)) := by
    rw [sd440]
    exact List.getElem?_cons_zero
  have hcount := windows_count_floor sd440 44 _ mats h0 hE
  refine ⟨mats, hE, ?_⟩
  rw [hcount]
  show (List.replicate 440 (some (0:ℝ))).length / 44 = 10
  rw [List.length_replicate]

/-- C4: every matrix of a successful engine run is symmetric,
`M i j = M j i` for all indices, by the symmetric pair of writes. -/
theorem correlation_matrix_symmetric (sd : List (String × List RVal)) (W : ℕ)
    (mats : List CMat) (M : CMat)
    (hE : calculate_correlation_matrices_per_window sd W = some mats)
    (hM : M ∈ mats) : ∀ i j, M i j = M j i := by
  cases h0 : sd[0]? with
  | none =>
    rw [calculate_correlation_matrices_per_window, h0] at hE
    exact absurd hE (by simp)
  | some first =>
    rw [calculate_correlation_matrices_per_window, h0] at hE
    have hmem := seqOption_mem _ mats hE M hM
    obtain ⟨win, _, hfm⟩ := List.mem_map.mp hmem
    rw [fillMatrix] at hfm
    exact fillLoop_symm _ _ _ _ hfm (fun a b => rfl)

/-- C4 witness: both engine matrices of `sdTiny` with `window_size = 1`
are symmetric; in particular `M 0 1 = M 1 0` for the first one. -/
theorem correlation_matrix_symmetric_witness :
    ∃ mats M, calculate_correlation_matrices_per_window sdTiny 1 = some mats ∧
      M ∈ mats ∧ (∀ i j, M i j = M j i) ∧ M 0 1 = M 1 0 := by
  have hlenall : ∀ p ∈ sdTiny, (p.2).length = 2 := by
    intro p hp
    simp only [sdTiny, List.mem_cons, List.mem_singleton, List.not_mem_nil, or_false] at hp
    rcases hp with rfl | rfl <;> rfl
  obtain ⟨mats, hE, hlen⟩ := engine_success sdTiny 1 2 (by decide) (by simp [sdTiny]) hlenall
  have hpos : 0 < mats.length := by
    rw [hlen]
    decide
  have hmem : mats.get ⟨0, hpos⟩ ∈ mats := List.get_mem mats 0 hpos
  have hsym := correlation_matrix_symmetric sdTiny 1 mats (mats.get ⟨0, hpos⟩) hE hmem
  exact ⟨mats, mats.get ⟨0, hpos⟩, hE, hmem, hsym, hsym 0 1⟩

/-- C5: in a successful engine run, the matrix entry of window `w` for the
instrument pair `(i, j)` is the Pearson correlation of the two instruments'
window-`w` chunks when both chunks have more than one element, and the
non-finite (not-a-number) marker otherwise. -/
theorem entry_pearson_or_nan (sd : List (String × List RVal)) (W w i j : ℕ)
    (mats : List CMat) (M : CMat) (ni nj : String) (si sj ci cj : List RVal)
    (hE : calculate_correlation_matrices_per_window sd W = some mats)
    (hM : mats[w]? = some M)
    (hi : sd[i]? = some (ni, si)) (hj : sd[j]? = some (nj, sj))
    (hci : (array_split si (si.length / W))[w]? = some ci)
    (hcj : (array_split sj (sj.length / W))[w]? = some cj) :
    M i j = if 1 < ci.length ∧ 1 < cj.length then pearson ci cj else rnan := by
  have hilt : i < sd.length := (List.getElem?_eq_some.mp hi).1
  have hjlt : j < sd.length := (List.getElem?_eq_some.mp hj).1
  have hsi : (sd.map Prod.snd)[i]? = some si := by
    rw [List.getElem?_map, hi]
    rfl
  have hsj : (sd.map Prod.snd)[j]? = some sj := by
    rw [List.getElem?_map, hj]
    rfl
  rcases le_total i j with hij | hji
  · obtain ⟨v, hcell, hMij, _⟩ := engine_entry sd W w i j mats M hE hM hij hjlt
    rw [hMij]
    simp only [cellValue, hsi, hsj, hci, hcj] at hcell
    by_cases h1 : 1 < ci.length
    · by_cases h2 : 1 < cj.length
      · by_cases h3 : ci.length = cj.length
        · rw [if_pos h1, if_pos h2, if_pos h3] at hcell
          rw [if_pos ⟨h1, h2⟩]
          exact (Option.some.inj hcell).symm
        · rw [if_pos h1, if_pos h2, if_neg h3] at hcell
          exact absurd hcell (by simp)
      · rw [if_pos h1, if_neg h2] at hcell
        rw [if_neg (fun hh => h2 hh.2)]
        exact (Option.some.inj hcell).symm
    · rw [if_neg h1] at hcell
      rw [if_neg (fun hh => h1 hh.1)]
      exact (Option.some.inj hcell).symm
  · obtain ⟨v, hcell, _, hMij⟩ := engine_entry sd W w j i mats M hE hM hji hilt
    rw [hMij]
    simp only [cellValue, hsi, hsj, hci, hcj] at hcell
    by_cases h1 : 1 < cj.length
    · by_cases h2 : 1 < ci.length
      · by_cases h3 : cj.length = ci.length
        · rw [if_pos h1, if_pos h2, if_pos h3] at hcell
          rw [if_pos ⟨h2, h1⟩, pearson_comm]
          exact (Option.some.inj hcell).symm
        · rw [if_pos h1, if_pos h2, if_neg h3] at hcell
          exact absurd hcell (by simp)
      · rw [if_pos h1, if_neg h2] at hcell
        rw [if_neg (fun hh => h2 hh.1)]
        exact (Option.some.inj hcell).symm
    · rw [if_neg h1] at hcell
      rw [if_neg (fun hh => h1 hh.2)]
      exact (Option.some.inj hcell).symm

/-- C5 witness: in `sdTiny` with `window_size = 1` every window-0 chunk has
exactly one element, so entry `(0, 1)` of the first matrix is the
non-finite marker, not a computed number. -/
theorem entry_pearson_or_nan_witness :
    ∃ mats M, calculate_correlation_matrices_per_window sdTiny 1 = some mats ∧
      mats[0]? = some M ∧ M 0 1 = rnan := by
  have hlenall : ∀ p ∈ sdTiny, (p.2).length = 2 := by
    intro p hp
    simp only [sdTiny, List.mem_cons, List.mem_singleton, List.not_mem_nil, or_false] at hp
    rcases hp with rfl | rfl <;> rfl
  obtain ⟨mats, hE, hlen⟩ := engine_success sdTiny 1 2 (by decide) (by simp [sdTiny]) hlenall
  have hpos : 0 < mats.length := by
    rw [hlen]
    decide
  have hM0 : mats[0]? = some (mats.get ⟨0, hpos⟩) := by
    rw [List.getElem?_eq_getElem hpos, List.get_eq_getElem]
  have hpi : sdTiny[0]? = some ("A", [some 0, some 1]) := by
    rw [sdTiny]
    exact List.getElem?_cons_zero
  have hpj : sdTiny[1]? = some ("B", [some 2, some 3]) := by
    rw [sdTiny]
    rfl
  have harri : array_split [some (0:ℝ), some 1] 2 = [[some 0], [some 1]] := rfl
  have harrj : array_split [some (2:ℝ), some 3] 2 = [[some 2], [some 3]] := rfl
  have hci : (array_split [some (0:ℝ), some 1]
      ([some (0:ℝ), some 1].length / 1))[0]? = some [some 0] := by
    rw [show ([some (0:ℝ), some 1].length / 1) = 2 from rfl, harri]
    exact List.getElem?_cons_zero
  have hcj : (array_split [some (2:ℝ), some 3]
      ([some (2:ℝ), some 3].length / 1))[0]? = some [some 2] := by
    rw [show ([some (2:ℝ), some 3].length / 1) = 2 from rfl, harrj]
    exact List.getElem?_cons_zero
  have hval := entry_pearson_or_nan sdTiny 1 0 0 1 mats (mats.get ⟨0, hpos⟩)
    "A" "B" [some 0, some 1] [some 2, some 3] [some 0] [some 2]
    hE hM0 hpi hpj hci hcj
  refine ⟨mats, mats.get ⟨0, hpos⟩, hE, hM0, ?_⟩
  rw [hval, if_neg (by decide)]

/-- C7: in a successful engine run, a diagonal entry `M i i` — the
self-correlation of instrument `i`'s window chunk with itself — equals 1
whenever that chunk has more than one element and positive variance. -/
theorem diagonal_entry_one (sd : List (String × List RVal)) (W w i : ℕ)
    (mats : List CMat) (M : CMat) (ni : String) (si ci : List RVal) (v : ℝ)
    (hE : calculate_correlation_matrices_per_window sd W = some mats)
    (hM : mats[w]? = some M) (hi : sd[i]? = some (ni, si))
    (hci : (array_split si (si.length / W))[w]? = some ci)
    (hlen1 : 1 < ci.length) (hvar : rvar ci = some v) (hv : 0 < v) :
    M i i = some 1 := by
  have hilt : i < sd.length := (List.getElem?_eq_some.mp hi).1
  have hsi : (sd.map Prod.snd)[i]? = some si := by
    rw [List.getElem?_map, hi]
    rfl
  obtain ⟨u, hcell, hMii, _⟩ := engine_entry sd W w i i mats M hE hM le_rfl hilt
  rw [hMii]
  simp only [cellValue, hsi, hci] at hcell
  rw [if_pos hlen1, if_pos hlen1] at hcell
  simp only [if_true] at hcell
  rw [← Option.some.inj hcell]
  exact pearson_self ci v hvar hv

/-- C7 witness: for the single instrument of `sdDiag` with
`window_size = 2` the single window chunk is `[0, 1]` (length 2, variance
1/4), and the diagonal entry of the produced matrix is exactly 1. -/
theorem diagonal_entry_one_witness :
    ∃ mats M, calculate_correlation_matrices_per_window sdDiag 2 = some mats ∧
      mats[0]? = some M ∧ M 0 0 = some 1 := by
  have hlenall : ∀ p ∈ sdDiag, (p.2).length = 2 := by
    intro p hp
    simp only [sdDiag, List.mem_singleton] at hp
    subst hp
    rfl
  obtain ⟨mats, hE, hlen⟩ := engine_success sdDiag 2 2 (by decide) (by simp [sdDiag]) hlenall
  have hpos : 0 < mats.length := by
    rw [hlen]
    decide
  have hM0 : mats[0]? = some (mats.get ⟨0, hpos⟩) := by
    rw [List.getElem?_eq_getElem hpos, List.get_eq_getElem]
  have hpi : sdDiag[0]? = some ("A", [some 0, some 1]) := by
    rw [sdDiag]
    exact List.getElem?_cons_zero
  have harr : array_split [some (0:ℝ), some 1] 1 = [[some 0, some 1]] := rfl
  have hci : (array_split [some (0:ℝ), some 1]
      ([some (0:ℝ), some 1].length / 2))[0]? = some [some 0, some 1] := by
    rw [show ([some (0:ℝ), some 1].length / 2) = 1 from rfl, harr]
    exact List.getElem?_cons_zero
  have hmean : rmean [some (0:ℝ), some 1] = some (1 / 2) := by
    norm_num [rmean, rsum, radd, rdiv]
  have hvar : rvar [some (0:ℝ), some 1] = some (1 / 4) := by
    rw [rvar, hmean]
    norm_num [rmean, rsum, radd, rsub, rmul, rdiv]
  have := diagonal_entry_one sdDiag 2 0 0 mats (mats.get ⟨0, hpos⟩)
    "A" [some 0, some 1] [some 0, some 1] (1 / 4)
    hE hM0 hpi hci (by decide) hvar (by norm_num)
  exact ⟨mats, mats.get ⟨0, hpos⟩, hE, hM0, this⟩
